import Mathlib

/-!
Verification of the `fava-envelope` budget engine against its specification.

The development shallowly embeds the two source modules:

* `budget_tree.py` — the hierarchical budget tree: node arena with a
  string-keyed registry (`node_map_`), directive parsing (`_parse_entry`,
  `_create_or_get`, `change_actual`), the post-order roll-up (`summarize`),
  and the traversal primitives (`dfs` with its per-call visited set and
  `bfs` without one).
* `beancount_envelope.py` — the envelope ledger builder: settings
  extraction (`_find_envelop_settings`), the activity sign flip
  (`_calculate_budget_activity`), `_set_available` and `_set_overspent`.

Python `Decimal` values are modelled as `ℚ`; `Decimal.quantize(Decimal("0.00"))`
(the default `ROUND_HALF_EVEN` mode) is modelled by `q2` below.  Values stored
on nodes as strings (`str(total)`) are modelled by the rational they denote,
which is faithful because `str` is injective on equally-quantized decimals.
-/

/-! ### Two-decimal quantization (`Decimal.quantize(Decimal("0.00"))`) -/

/-- Round half to even on a rational, the default rounding mode of Python
`Decimal.quantize`. -/
def rhe (x : ℚ) : ℤ :=
  let n := ⌊x⌋
  if x - n < 1/2 then n
  else if (1:ℚ)/2 < x - n then n + 1
  else if n % 2 = 0 then n else n + 1

/-- Quantization to two decimal places: `Decimal(x).quantize(Decimal("0.00"))`. -/
def q2 (x : ℚ) : ℚ := rhe (100 * x) / 100

/-- A rational is an exact two-decimal value (a whole number of cents). -/
def IsCent (x : ℚ) : Prop := ∃ k : ℤ, x = (k : ℚ) / 100

/-- Executable test for `IsCent`. -/
def isCentB (x : ℚ) : Bool := decide ((x * 100).den = 1)

theorem rhe_intCast (k : ℤ) : rhe (k : ℚ) = k := by
  simp [rhe, Int.floor_intCast]

theorem q2_int_div (k : ℤ) : q2 ((k : ℚ) / 100) = (k : ℚ) / 100 := by
  have h : (100 : ℚ) * ((k : ℚ) / 100) = (k : ℚ) := by ring
  rw [q2, h, rhe_intCast]

theorem isCent_q2 (x : ℚ) : IsCent (q2 x) := ⟨rhe (100 * x), rfl⟩

theorem IsCent.q2_eq {x : ℚ} (h : IsCent x) : q2 x = x := by
  obtain ⟨k, rfl⟩ := h
  exact q2_int_div k

theorem IsCent.abs {x : ℚ} (h : IsCent x) : IsCent |x| := by
  obtain ⟨k, rfl⟩ := h
  refine ⟨|k|, ?_⟩
  rw [abs_div]
  push_cast
  norm_num

theorem IsCent.add {x y : ℚ} (hx : IsCent x) (hy : IsCent y) : IsCent (x + y) := by
  obtain ⟨k, rfl⟩ := hx
  obtain ⟨l, rfl⟩ := hy
  exact ⟨k + l, by push_cast; ring⟩

theorem isCent_zero : IsCent 0 := ⟨0, by norm_num⟩

theorem isCent_sum {l : List ℚ} (h : ∀ x ∈ l, IsCent x) : IsCent l.sum := by
  induction l with
  | nil => simpa using isCent_zero
  | cons x xs ih =>
    rw [List.sum_cons]
    exact (h x (by simp)).add (ih fun y hy => h y (by simp [hy]))

theorem isCentB_iff {x : ℚ} : isCentB x = true ↔ IsCent x := by
  constructor
  · intro h
    have hd : (x * 100).den = 1 := by simpa [isCentB] using h
    refine ⟨(x * 100).num, ?_⟩
    have hx : ((x * 100).num : ℚ) = x * 100 := by
      rw [← Rat.den_eq_one_iff]
      exact hd
    field_simp
    linarith [hx]
  · rintro ⟨k, rfl⟩
    have h : (k : ℚ) / 100 * 100 = (k : ℚ) := by ring
    simp [isCentB, h]

/-- Helper: the absolute value of a quantized value is a fixed point of
`fun v => abs (q2 v)`. -/
theorem abs_q2_abs_q2 (x : ℚ) : |q2 (|q2 x|)| = |q2 x| := by
  rw [((isCent_q2 x).abs).q2_eq, abs_abs]

/-! ### The budget tree shape and `summarize` (`budget_tree.py`)

`BudgetTree.summarize` runs a post-order DFS whose `post` callback replaces
every non-sentinel node's stored `budget`/`actual` by the absolute value of the
quantized subtree total (leaf: its own direct values, `0` when unset; internal
node: the sum of the children's recorded totals, read from the `node_sum`
dictionary).  Children of the fixed sentinel names are recorded in `node_sum`
by their own `post` call only when they are not sentinels themselves; an
internal non-sentinel node with a sentinel child makes the Python code raise
`KeyError`, which the model reflects by returning `none`. -/

mutual
inductive BTree where
  | node (name : String) (budget : Option ℚ) (actual : Option ℚ) (children : BTreeL)
inductive BTreeL where
  | nil
  | cons (t : BTree) (ts : BTreeL)
end

/-- Name stored on a node (`node_.name`). -/
def nameOf : BTree → String
  | .node n _ _ _ => n

/-- Budget stored on a node (`node_.budget`). -/
def budgetOf : BTree → Option ℚ
  | .node _ b _ _ => b

/-- Actual stored on a node (`node_.actual`). -/
def actualOf : BTree → Option ℚ
  | .node _ _ a _ => a

/-- The three scope-root names skipped by `summarize`'s `post` callback. -/
def sentinel (n : String) : Bool := n = "Budget Tree" || n = "tasks" || n = "monthly"

/-- Reading all children's `node_sum` entries; `none` models the `KeyError`
raised when a child was skipped by the sentinel test. -/
def seqOpt : List (Option (ℚ × ℚ)) → Option (List (ℚ × ℚ))
  | [] => some []
  | none :: _ => none
  | some p :: rest => (seqOpt rest).map (p :: ·)

mutual
/-- `BudgetTree.summarize`, restricted to one node of the (tree-shaped) object
graph: returns the rewritten subtree together with the node's `node_sum` entry
(`none` when the node is a sentinel and records nothing). -/
def summarizeT : BTree → Option (BTree × Option (ℚ × ℚ))
  | .node n b a cs =>
    match summarizeL cs with
    | none => none
    | some (cs', ss) =>
      if sentinel n then some (.node n b a cs', none)
      else
        match cs with
        | .nil =>
          let tb := |q2 (b.getD 0)|
          let ta := |q2 (a.getD 0)|
          some (.node n (some tb) (some ta) cs', some (tb, ta))
        | .cons _ _ =>
          match seqOpt ss with
          | none => none
          | some ps =>
            let tb := |q2 (ps.map Prod.fst).sum|
            let ta := |q2 (ps.map Prod.snd).sum|
            some (.node n (some tb) (some ta) cs', some (tb, ta))

/-- Post-order pass over a child list, collecting rewritten children and their
`node_sum` entries in order. -/
def summarizeL : BTreeL → Option (BTreeL × List (Option (ℚ × ℚ)))
  | .nil => some (.nil, [])
  | .cons c cs =>
    match summarizeT c, summarizeL cs with
    | some (c', s), some (cs', ss) => some (.cons c' cs', s :: ss)
    | _, _ => none
end

/-- Budgets stored on a list of (already summarized) children; `none` if some
child carries no stored budget. -/
def storedB : BTreeL → Option (List ℚ)
  | .nil => some []
  | .cons t ts =>
    match budgetOf t, storedB ts with
    | some v, some vs => some (v :: vs)
    | _, _ => none

/-- Actuals stored on a list of (already summarized) children. -/
def storedA : BTreeL → Option (List ℚ)
  | .nil => some []
  | .cons t ts =>
    match actualOf t, storedA ts with
    | some v, some vs => some (v :: vs)
    | _, _ => none

/-- A stored value that is present, non-negative and an exact two-decimal
quantity, as the specification demands of every rolled-up total. -/
def qok : Option ℚ → Bool
  | none => false
  | some v => decide (0 ≤ v) && isCentB v

mutual
/-- Specification-side checker for claim C1, following the spec's words: after
`summarize`, a non-sentinel leaf stores the absolute value of its own quantized
direct `budget`/`actual` (`0` when unset); a non-sentinel internal node stores
the quantized absolute sum of its children's stored subtree totals (its own
direct values ignored); every stored total is non-negative and quantized to two
decimals; sentinel-named nodes keep their stored values untouched. -/
def checkT : BTree → BTree → Bool
  | .node n b a cs, .node n' b' a' cs' =>
    decide (n' = n) && checkL cs cs' &&
      (if sentinel n then decide (b' = b) && decide (a' = a)
       else
        match cs with
        | .nil =>
          decide (b' = some (|q2 (b.getD 0)|)) && decide (a' = some (|q2 (a.getD 0)|))
            && qok b' && qok a'
        | .cons _ _ =>
          match storedB cs', storedA cs' with
          | some bs, some as' =>
            decide (b' = some (|q2 bs.sum|)) && decide (a' = some (|q2 as'.sum|))
              && qok b' && qok a'
          | _, _ => false)

/-- Pointwise `checkT` over the child lists. -/
def checkL : BTreeL → BTreeL → Bool
  | .nil, .nil => true
  | .cons t ts, .cons t' ts' => checkT t t' && checkL ts ts'
  | _, _ => false
end

theorem sumT_stored (t c' : BTree) (tb ta : ℚ)
    (h : summarizeT t = some (c', some (tb, ta))) :
    budgetOf c' = some tb ∧ actualOf c' = some ta := by
  cases t with
  | node n b a cs =>
    simp only [summarizeT] at h
    split at h
    · exact absurd h (by simp)
    · split at h
      · simp at h
      · split at h
        · simp only [Option.some.injEq, Prod.mk.injEq] at h
          obtain ⟨rfl, rfl, rfl⟩ := h
          simp [budgetOf, actualOf]
        · split at h
          · exact absurd h (by simp)
          · simp only [Option.some.injEq, Prod.mk.injEq] at h
            obtain ⟨rfl, rfl, rfl⟩ := h
            simp [budgetOf, actualOf]

theorem sumL_stored : ∀ (cs cs' : BTreeL) (ss : List (Option (ℚ × ℚ)))
    (ps : List (ℚ × ℚ)), summarizeL cs = some (cs', ss) → seqOpt ss = some ps →
    storedB cs' = some (ps.map Prod.fst) ∧ storedA cs' = some (ps.map Prod.snd)
  | .nil, cs', ss, ps, h1, h2 => by
    simp only [summarizeL, Option.some.injEq, Prod.mk.injEq] at h1
    obtain ⟨rfl, rfl⟩ := h1
    simp only [seqOpt, Option.some.injEq] at h2
    subst h2
    simp [storedB, storedA]
  | .cons c cs, cs', ss, ps, h1, h2 => by
    simp only [summarizeL] at h1
    split at h1
    · rename_i c' s cs'' ss' hc hl
      simp only [Option.some.injEq, Prod.mk.injEq] at h1
      obtain ⟨rfl, rfl⟩ := h1
      cases s with
      | none => simp [seqOpt] at h2
      | some p =>
        simp only [seqOpt] at h2
        cases hrest : seqOpt ss' with
        | none => rw [hrest] at h2; simp at h2
        | some ps' =>
          rw [hrest] at h2
          simp at h2
          subst h2
          obtain ⟨hb, ha⟩ := sumL_stored cs cs'' ss' ps' hl hrest
          obtain ⟨hb1, ha1⟩ := sumT_stored c c' p.1 p.2 (by rw [hc])
          simp [storedB, storedA, hb, ha, hb1, ha1]
    · exact absurd h1 (by simp)

theorem qok_abs_q2 (x : ℚ) : qok (some (|q2 x|)) = true := by
  simp [qok, abs_nonneg, isCentB_iff.mpr ((isCent_q2 x).abs)]

mutual
theorem c1auxT : ∀ (t t' : BTree) (os : Option (ℚ × ℚ)),
    summarizeT t = some (t', os) → checkT t t' = true
  | .node n b a cs, t', os, h => by
    simp only [summarizeT] at h
    split at h
    · exact absurd h (by simp)
    · rename_i cs' ss hL
      have hcl : checkL cs cs' = true := c1auxL cs cs' ss hL
      split at h
      · rename_i hs
        simp only [Option.some.injEq, Prod.mk.injEq] at h
        obtain ⟨rfl, rfl⟩ := h
        simp [checkT, hs, hcl]
      · rename_i hs
        split at h
        · simp only [Option.some.injEq, Prod.mk.injEq] at h
          obtain ⟨rfl, rfl⟩ := h
          simp [checkT, hs, hcl, qok_abs_q2]
        · split at h
          · exact absurd h (by simp)
          · rename_i c0 cs0 ps hq
            simp only [Option.some.injEq, Prod.mk.injEq] at h
            obtain ⟨rfl, rfl⟩ := h
            obtain ⟨hb, ha⟩ := sumL_stored _ cs' ss ps hL hq
            simp [checkT, hs, hcl, qok_abs_q2, hb, ha]

theorem c1auxL : ∀ (ts ts' : BTreeL) (ss : List (Option (ℚ × ℚ))),
    summarizeL ts = some (ts', ss) → checkL ts ts' = true
  | .nil, ts', ss, h => by
    simp only [summarizeL, Option.some.injEq, Prod.mk.injEq] at h
    obtain ⟨rfl, rfl⟩ := h
    simp [checkL]
  | .cons c cs, ts', ss, h => by
    simp only [summarizeL] at h
    split at h
    · rename_i c' s cs'' ss' hc hl
      simp only [Option.some.injEq, Prod.mk.injEq] at h
      obtain ⟨rfl, rfl⟩ := h
      have h1 : checkT c c' = true := c1auxT c c' s hc
      have h2 : checkL cs cs'' = true := c1auxL cs cs'' ss' hl
      simp [checkL, h1, h2]
    · exact absurd h (by simp)
end

theorem q2_intCast (k : ℤ) : q2 ((k : ℚ)) = (k : ℚ) := by
  have h : (100 : ℚ) * (k : ℚ) = ((100 * k : ℤ) : ℚ) := by push_cast; ring
  rw [q2, h, rhe_intCast]
  push_cast
  ring

/-- C1: on every tree on which `summarize` runs to completion, each non-sentinel
leaf ends storing the absolute value of its own quantized direct budget/actual
(0 when unset), each non-sentinel internal node ends storing the quantized
absolute sum of its children's recorded subtree totals (its own direct values
ignored), every stored total is non-negative and quantized to two decimal
places, and the sentinel nodes "Budget Tree", "monthly" and "tasks" keep their
stored values untouched. -/
theorem c1_summarize_rollup (t t' : BTree) (os : Option (ℚ × ℚ))
    (h : summarizeT t = some (t', os)) : checkT t t' = true :=
  c1auxT t t' os h

/-- Example tree: sentinel root and scope node above one month with two
category leaves; the month node carries direct values 7/8 that the roll-up
must ignore. -/
def exTree : BTree :=
  .node "Budget Tree" none none
    (.cons (.node "monthly" none none
      (.cons (.node "2024-01" (some 7) (some 8)
        (.cons (.node "Food" (some 50) (some (-30)) .nil)
          (.cons (.node "Rent" (some 20) none .nil) .nil))) .nil)) .nil)

/-- The summarized form of `exTree`. -/
def exTree' : BTree :=
  .node "Budget Tree" none none
    (.cons (.node "monthly" none none
      (.cons (.node "2024-01" (some 70) (some 30)
        (.cons (.node "Food" (some 50) (some 30) .nil)
          (.cons (.node "Rent" (some 20) (some 0) .nil) .nil))) .nil)) .nil)

theorem exTree_summarize : summarizeT exTree = some (exTree', none) := by
  have e50 : q2 (50 : ℚ) = 50 := by simpa using q2_intCast 50
  have e20 : q2 (20 : ℚ) = 20 := by simpa using q2_intCast 20
  have e30 : q2 (-30 : ℚ) = -30 := by simpa using q2_intCast (-30)
  have e0 : q2 (0 : ℚ) = 0 := by simpa using q2_intCast 0
  have e70 : q2 (70 : ℚ) = 70 := by simpa using q2_intCast 70
  have e30b : q2 (30 : ℚ) = 30 := by simpa using q2_intCast 30
  have a50 : |(50 : ℚ)| = 50 := abs_of_nonneg (by norm_num)
  have a20 : |(20 : ℚ)| = 20 := abs_of_nonneg (by norm_num)
  have a30 : |(-30 : ℚ)| = 30 := by rw [abs_neg]; exact abs_of_nonneg (by norm_num)
  have a0 : |(0 : ℚ)| = 0 := abs_zero
  have a70 : |(70 : ℚ)| = 70 := abs_of_nonneg (by norm_num)
  have a30b : |(30 : ℚ)| = 30 := abs_of_nonneg (by norm_num)
  simp [exTree, exTree', summarizeT, summarizeL, sentinel, seqOpt,
    e50, e20, e30, e0, e70, e30b, a50, a20, a30, a0, a70, a30b]
  norm_num [e70, e30b, a70, a30b]

/-- Witness for C1 at a concrete tree. -/
theorem c1_summarize_rollup_witness :
    summarizeT exTree = some (exTree', none) ∧ checkT exTree exTree' = true :=
  ⟨exTree_summarize, c1_summarize_rollup exTree exTree' none exTree_summarize⟩

mutual
theorem c8auxT : ∀ (t t' : BTree) (os : Option (ℚ × ℚ)),
    summarizeT t = some (t', os) → summarizeT t' = some (t', os)
  | .node n b a cs, t', os, h => by
    simp only [summarizeT] at h
    split at h
    · exact absurd h (by simp)
    · rename_i cs' ss hL
      have ih : summarizeL cs' = some (cs', ss) := c8auxL cs cs' ss hL
      split at h
      · rename_i hs
        simp only [Option.some.injEq, Prod.mk.injEq] at h
        obtain ⟨rfl, rfl⟩ := h
        simp [summarizeT, ih, hs]
      · rename_i hs
        split at h
        · simp only [Option.some.injEq, Prod.mk.injEq] at h
          obtain ⟨rfl, rfl⟩ := h
          simp only [summarizeL, Option.some.injEq, Prod.mk.injEq] at hL
          obtain ⟨rfl, rfl⟩ := hL
          simp [summarizeT, summarizeL, hs, abs_q2_abs_q2]
        · split at h
          · exact absurd h (by simp)
          · rename_i c0 cs0 ps hq
            simp only [Option.some.injEq, Prod.mk.injEq] at h
            obtain ⟨rfl, rfl⟩ := h
            simp only [summarizeL] at hL
            split at hL
            · rename_i c' s cs'' ss' hc hl
              simp only [Option.some.injEq, Prod.mk.injEq] at hL
              obtain ⟨rfl, rfl⟩ := hL
              simp [summarizeT, ih, hs, hq]
            · exact absurd hL (by simp)

theorem c8auxL : ∀ (ts ts' : BTreeL) (ss : List (Option (ℚ × ℚ))),
    summarizeL ts = some (ts', ss) → summarizeL ts' = some (ts', ss)
  | .nil, ts', ss, h => by
    simp only [summarizeL, Option.some.injEq, Prod.mk.injEq] at h
    obtain ⟨rfl, rfl⟩ := h
    simp [summarizeL]
  | .cons c cs, ts', ss, h => by
    simp only [summarizeL] at h
    split at h
    · rename_i c' s cs'' ss' hc hl
      simp only [Option.some.injEq, Prod.mk.injEq] at h
      obtain ⟨rfl, rfl⟩ := h
      have i1 := c8auxT c c' s hc
      have i2 := c8auxL cs cs'' ss' hl
      simp [summarizeL, i1, i2]
    · exact absurd h (by simp)
end

/-- C8: `summarize` is idempotent — running it a second time immediately after
a successful run, with no mutation in between, reproduces exactly the same
stored budget/actual values on every node (the whole rewritten tree is a fixed
point, together with its recorded `node_sum` entries). -/
theorem c8_summarize_idem (t t' : BTree) (os : Option (ℚ × ℚ))
    (h : summarizeT t = some (t', os)) : summarizeT t' = some (t', os) :=
  c8auxT t t' os h

/-- Witness for C8: the summarized example tree is a fixed point of
`summarize`. -/
theorem c8_summarize_idem_witness : summarizeT exTree' = some (exTree', none) :=
  c8_summarize_idem exTree exTree' none exTree_summarize

/-! ### Node registry and directive parsing (`budget_tree.py`)

The Python tree aliases node objects: `node_map_` maps the concatenated string
`task + month + n` to `BudgetTree` objects that also sit in other nodes'
`children_` sets.  The model therefore uses an arena: nodes live in a list and
are addressed by index (the Python object identity), the registry maps key
strings to indices, and `children_` (an insertion-ordered set) is a duplicate
free list of indices. -/

structure BNode where
  name : String
  budget : Option ℚ
  actual : Option ℚ
  children : List ℕ
deriving DecidableEq, Repr

structure TState where
  nodes : List BNode
  nodeMap : List (String × ℕ)
  tasks : List String
deriving DecidableEq, Repr

/-- The tree of a fresh `BudgetTree()` root: empty registry. -/
def TState.empty : TState := ⟨[], [], []⟩

/-- First-match lookup in the registry (Python dict lookup; keys are unique by
construction, appended on first insertion). -/
def findKey (m : List (String × ℕ)) (k : String) : Option ℕ :=
  match m with
  | [] => none
  | p :: rest => if p.1 = k then some p.2 else findKey rest k

/-- `BudgetTree._create_or_get(task, month, n)`: key is the plain string
concatenation `task + month + n`; an absent key allocates a fresh node named
`n` with no budget, no actual and no children. -/
def createOrGet (s : TState) (task month n : String) : ℕ × TState :=
  let f := task ++ month ++ n
  match findKey s.nodeMap f with
  | some i => (i, s)
  | none =>
    let i := s.nodes.length
    (i, { s with nodes := s.nodes ++ [⟨n, none, none, []⟩],
                 nodeMap := s.nodeMap ++ [(f, i)] })

/-- `add_children` via the ordered set: append the child id unless present. -/
def addChild (s : TState) (p c : ℕ) : TState :=
  match s.nodes.get? p with
  | some nd =>
    { s with nodes :=
        s.nodes.set p { nd with children := if c ∈ nd.children then nd.children else nd.children ++ [c] } }
  | none => s

/-- `ans[-1].node_ = ans[-1].node_._replace(budget=str(budget))`. -/
def setBudget (s : TState) (i : ℕ) (v : ℚ) : TState :=
  match s.nodes.get? i with
  | some nd => { s with nodes := s.nodes.set i { nd with budget := some v } }
  | none => s

/-- `BudgetTree.change_actual(task, month, n, v)`: look up the concatenated
key; on a hit overwrite that node's `actual` with `str(v)` and return `True`,
otherwise return `False` without touching anything. -/
def changeActual (s : TState) (task month n : String) (v : ℚ) : Bool × TState :=
  let f := task ++ month ++ n
  match findKey s.nodeMap f with
  | some i =>
    match s.nodes.get? i with
    | some nd => (true, { s with nodes := s.nodes.set i { nd with actual := some v } })
    | none => (true, s)
  | none => (false, s)

/-- An `allocate`/`task` custom entry as `_parse_entry` receives it:
`kind` is `e.values[0].value`, `month` is `str(e.date)[0:-3]`, `vals` is
`[x.value for x in e.values[1:]]` and `amount` is the number
`float(vals[-1])` denotes. -/
structure CEntry where
  kind : String
  month : String
  vals : List String
  amount : ℚ
deriving DecidableEq, Repr

/-- The `assert len(vals) >= 2` failure (the spec's MalformedDirectiveError). -/
inductive DirErr where
  | malformed
deriving DecidableEq, Repr

/-- `tasks_.add(vals[0])` (set insertion). -/
def addTask (s : TState) (v : String) : TState :=
  if v ∈ s.tasks then s else { s with tasks := s.tasks ++ [v] }

/-- One step of `_parse_entry`'s chain loop: create or fetch the node for
segment `k`, attach it to the previous chain node, move the cursor. -/
def stepSeg (first month : String) (p : ℕ × TState) (k : String) : ℕ × TState :=
  let cs := createOrGet p.2 first month k
  (cs.1, addChild cs.2 p.1 cs.1)

/-- The chain construction of `_parse_entry`: create the scope root
(`_create_or_get(first, first, first)`), then walk all values but the last
(the amount), linking parent to child, and finally overwrite the deepest
node's budget with the amount. Returns the scope root (`ans[0]`). -/
def parseChain (s : TState) (first month : String) (segs : List String)
    (amount : ℚ) : ℕ × TState :=
  let rs := createOrGet s first first first
  let ls := segs.foldl (stepSeg first month) rs
  (rs.1, setBudget ls.2 ls.1 amount)

/-- `BudgetTree._parse_entry`: asserts at least two values, computes the scope
(`monthly` or `tasks`), the period (the entry month; for a task whose first
segment is not a `budget-` year bucket, the empty string, registering the task
name), prepends the month for allocations, and builds the chain. -/
def parseEntry (s : TState) (e : CEntry) : Except DirErr (ℕ × TState) :=
  if e.vals.length < 2 then .error .malformed
  else if e.kind = "task" then
    if (e.vals.headD "").startsWith "budget-" then
      .ok (parseChain s "tasks" e.month e.vals.dropLast e.amount)
    else
      .ok (parseChain (addTask s (e.vals.headD "")) "tasks" "" e.vals.dropLast e.amount)
  else
    .ok (parseChain s "monthly" e.month (e.month :: e.vals).dropLast e.amount)

/-- Scope of the deepest node a directive addresses. -/
def entryScope (e : CEntry) : String := if e.kind = "task" then "tasks" else "monthly"

/-- Period of the deepest node a directive addresses. -/
def entryPeriod (e : CEntry) : String :=
  if e.kind = "task" then
    (if (e.vals.headD "").startsWith "budget-" then e.month else "")
  else e.month

/-- Name of the deepest node a directive addresses (the second-to-last value). -/
def entryLeafName (e : CEntry) : String := e.vals.dropLast.getLastD ""

/-- Registry key of the deepest node a directive addresses. -/
def entryKey (e : CEntry) : String := entryScope e ++ entryPeriod e ++ entryLeafName e

/-- Registry well-formedness: every registered id points into the arena. -/
def WfS (s : TState) : Prop := ∀ p ∈ s.nodeMap, p.2 < s.nodes.length

theorem get?_some_lt {α} {l : List α} {i : ℕ} {a : α} (h : l.get? i = some a) :
    i < l.length := by
  by_contra hc
  rw [List.get?_eq_none.mpr (Nat.le_of_not_lt hc)] at h
  cases h

theorem lt_get?_some {α} {l : List α} {i : ℕ} (h : i < l.length) :
    ∃ a, l.get? i = some a := by
  cases hg : l.get? i with
  | none => rw [List.get?_eq_none] at hg; omega
  | some a => exact ⟨a, rfl⟩

theorem findKey_append_some {m : List (String × ℕ)} {k : String} {i : ℕ}
    (l : List (String × ℕ)) (h : findKey m k = some i) : findKey (m ++ l) k = some i := by
  induction m with
  | nil => simp [findKey] at h
  | cons p rest ih =>
    by_cases hp : p.1 = k
    · simpa [findKey, hp] using h
    · rw [List.cons_append]
      simp only [findKey, hp, if_false] at h ⊢
      exact ih h

theorem findKey_append_new {m : List (String × ℕ)} {k : String} (i : ℕ)
    (h : findKey m k = none) : findKey (m ++ [(k, i)]) k = some i := by
  induction m with
  | nil => simp [findKey]
  | cons p rest ih =>
    by_cases hp : p.1 = k
    · simp [findKey, hp] at h
    · rw [List.cons_append]
      simp only [findKey, hp, if_false] at h ⊢
      exact ih h

theorem findKey_mem {m : List (String × ℕ)} {k : String} {i : ℕ}
    (h : findKey m k = some i) : (k, i) ∈ m := by
  induction m with
  | nil => simp [findKey] at h
  | cons p rest ih =>
    by_cases hp : p.1 = k
    · simp only [findKey, hp, if_true] at h
      obtain rfl := Option.some.inj h
      obtain ⟨a, b⟩ := p
      simp only at hp
      subst hp
      exact List.mem_cons_self _ _
    · simp only [findKey, hp, if_false] at h
      exact List.mem_cons_of_mem _ (ih h)

theorem createOrGet_found {s : TState} {t mo n : String} {i : ℕ}
    (h : findKey s.nodeMap (t ++ mo ++ n) = some i) : createOrGet s t mo n = (i, s) := by
  simp [createOrGet, h]

theorem createOrGet_mono {s : TState} (t mo n : String) {k : String} {i : ℕ}
    (h : findKey s.nodeMap k = some i) :
    findKey (createOrGet s t mo n).2.nodeMap k = some i := by
  unfold createOrGet
  cases hf : findKey s.nodeMap (t ++ mo ++ n) with
  | some j => simpa [hf] using h
  | none =>
    simp only [hf]
    exact findKey_append_some _ h

theorem createOrGet_binds (s : TState) (t mo n : String) :
    findKey (createOrGet s t mo n).2.nodeMap (t ++ mo ++ n) =
      some (createOrGet s t mo n).1 := by
  unfold createOrGet
  cases hf : findKey s.nodeMap (t ++ mo ++ n) with
  | some j => simp [hf]
  | none =>
    simp only [hf]
    exact findKey_append_new _ hf

theorem createOrGet_wf {s : TState} (hw : WfS s) (t mo n : String) :
    WfS (createOrGet s t mo n).2 ∧
      (createOrGet s t mo n).1 < (createOrGet s t mo n).2.nodes.length := by
  unfold createOrGet
  cases hf : findKey s.nodeMap (t ++ mo ++ n) with
  | some j =>
    simp only [hf]
    exact ⟨hw, hw _ (findKey_mem hf)⟩
  | none =>
    simp only [hf]
    constructor
    · intro p hp
      dsimp only at hp ⊢
      rw [List.length_append]
      rcases List.mem_append.mp hp with hold | hnew
      · have h1 := hw p hold
        simp only [List.length_cons, List.length_nil]
        omega
      · simp only [List.mem_singleton] at hnew
        subst hnew
        simp
    · simp

theorem addChild_map (s : TState) (p c : ℕ) : (addChild s p c).nodeMap = s.nodeMap := by
  unfold addChild
  split <;> rfl

theorem addChild_len (s : TState) (p c : ℕ) :
    (addChild s p c).nodes.length = s.nodes.length := by
  unfold addChild
  split <;> simp

theorem addChild_budget (s : TState) (p c j : ℕ) :
    ((addChild s p c).nodes.get? j).map (·.budget) = (s.nodes.get? j).map (·.budget) := by
  unfold addChild
  cases hg : s.nodes.get? p with
  | none => rfl
  | some nd =>
    simp only []
    by_cases hj : j = p
    · subst hj
      rw [List.get?_set_eq_of_lt _ (get?_some_lt hg), hg]
      rfl
    · rw [List.get?_set_ne _ _ (fun hh => hj hh.symm)]

theorem addChild_wf {s : TState} (hw : WfS s) (p c : ℕ) : WfS (addChild s p c) := by
  intro q hq
  rw [addChild_map] at hq
  rw [addChild_len]
  exact hw q hq

theorem setBudget_map (s : TState) (i : ℕ) (v : ℚ) :
    (setBudget s i v).nodeMap = s.nodeMap := by
  unfold setBudget
  split <;> rfl

theorem setBudget_get_self {s : TState} {i : ℕ} (v : ℚ) (h : i < s.nodes.length) :
    ((setBudget s i v).nodes.get? i).map (·.budget) = some (some v) := by
  obtain ⟨nd, hnd⟩ := lt_get?_some h
  unfold setBudget
  rw [hnd]
  dsimp only
  rw [List.get?_set_eq_of_lt _ h]
  rfl

theorem setBudget_wf {s : TState} (hw : WfS s) (i : ℕ) (v : ℚ) : WfS (setBudget s i v) := by
  intro q hq
  rw [setBudget_map] at hq
  unfold setBudget
  split
  · simpa using hw q hq
  · exact hw q hq

theorem stepSeg_eq (f mo : String) (p : ℕ × TState) (k : String) :
    stepSeg f mo p k =
      ((createOrGet p.2 f mo k).1,
        addChild (createOrGet p.2 f mo k).2 p.1 (createOrGet p.2 f mo k).1) := rfl

theorem parseChain_eq (s : TState) (f mo : String) (segs : List String) (amount : ℚ) :
    parseChain s f mo segs amount =
      ((createOrGet s f f f).1,
        setBudget (segs.foldl (stepSeg f mo) (createOrGet s f f f)).2
          (segs.foldl (stepSeg f mo) (createOrGet s f f f)).1 amount) := rfl

theorem foldSeg_mono (f mo : String) : ∀ (l : List String) (p : ℕ × TState) {k : String}
    {i : ℕ}, findKey p.2.nodeMap k = some i →
    findKey (l.foldl (stepSeg f mo) p).2.nodeMap k = some i := by
  intro l
  induction l with
  | nil => intro p k i h; simpa using h
  | cons a l ih =>
    intro p k i h
    rw [List.foldl_cons]
    apply ih
    rw [stepSeg_eq]
    dsimp only
    rw [addChild_map]
    exact createOrGet_mono _ _ _ h

theorem foldSeg_wf (f mo : String) : ∀ (l : List String) (p : ℕ × TState),
    WfS p.2 → p.1 < p.2.nodes.length →
    WfS (l.foldl (stepSeg f mo) p).2 ∧
      (l.foldl (stepSeg f mo) p).1 < (l.foldl (stepSeg f mo) p).2.nodes.length := by
  intro l
  induction l with
  | nil => intro p hw hp; exact ⟨hw, hp⟩
  | cons a l ih =>
    intro p hw hp
    rw [List.foldl_cons]
    apply ih
    · rw [stepSeg_eq]
      exact addChild_wf (createOrGet_wf hw f mo a).1 _ _
    · rw [stepSeg_eq]
      dsimp only
      rw [addChild_len]
      exact (createOrGet_wf hw f mo a).2

theorem dropLast_append_getLastD {α} {l : List α} (d : α) (h : l ≠ []) :
    l.dropLast ++ [l.getLastD d] = l := by
  have h1 := List.dropLast_append_getLast h
  rw [List.getLastD_eq_getLast?, List.getLast?_eq_getLast _ h]
  simpa using h1

theorem getLastD_irrel {α} {l : List α} (h : l ≠ []) (d d' : α) :
    l.getLastD d = l.getLastD d' := by
  cases l with
  | nil => exact absurd rfl h
  | cons a l =>
    rw [List.getLastD_eq_getLast?, List.getLastD_eq_getLast?,
      List.getLast?_eq_getLast _ h]
    rfl

theorem parseChain_spec (s : TState) (f mo : String) (segs : List String)
    (hne : segs ≠ []) (amount : ℚ) (hw : WfS s) :
    WfS (parseChain s f mo segs amount).2 ∧
    (∀ key i, findKey s.nodeMap key = some i →
      findKey (parseChain s f mo segs amount).2.nodeMap key = some i) ∧
    ∃ d, findKey (parseChain s f mo segs amount).2.nodeMap
          (f ++ mo ++ segs.getLastD "") = some d ∧
      ((parseChain s f mo segs amount).2.nodes.get? d).map (·.budget) =
        some (some amount) := by
  have hfold : ∀ p : ℕ × TState, segs.foldl (stepSeg f mo) p =
      stepSeg f mo (segs.dropLast.foldl (stepSeg f mo) p) (segs.getLastD "") := by
    intro p
    conv_lhs => rw [← dropLast_append_getLastD "" hne]
    rw [List.foldl_append]
    simp
  have hwroot := createOrGet_wf hw f f f
  have hq := foldSeg_wf f mo segs.dropLast (createOrGet s f f f) hwroot.1 hwroot.2
  set q := segs.dropLast.foldl (stepSeg f mo) (createOrGet s f f f) with hqdef
  have hcg := createOrGet_wf hq.1 f mo (segs.getLastD "")
  refine ⟨?_, ?_, ?_⟩
  · rw [parseChain_eq, hfold, stepSeg_eq]
    exact setBudget_wf (addChild_wf hcg.1 _ _) _ _
  · intro key i h
    rw [parseChain_eq, hfold, stepSeg_eq]
    dsimp only
    rw [setBudget_map, addChild_map]
    exact createOrGet_mono _ _ _ (foldSeg_mono f mo _ _ (createOrGet_mono _ _ _ h))
  · refine ⟨(createOrGet q.2 f mo (segs.getLastD "")).1, ?_, ?_⟩
    · rw [parseChain_eq, hfold, stepSeg_eq]
      dsimp only
      rw [setBudget_map, addChild_map]
      exact createOrGet_binds _ _ _ _
    · rw [parseChain_eq, hfold, stepSeg_eq]
      dsimp only
      apply setBudget_get_self
      rw [addChild_len]
      exact hcg.2

theorem addTask_nodeMap (s : TState) (v : String) : (addTask s v).nodeMap = s.nodeMap := by
  unfold addTask
  split <;> rfl

theorem addTask_nodes (s : TState) (v : String) : (addTask s v).nodes = s.nodes := by
  unfold addTask
  split <;> rfl

theorem addTask_wf {s : TState} (hw : WfS s) (v : String) : WfS (addTask s v) := by
  intro p hp
  rw [addTask_nodeMap] at hp
  rw [addTask_nodes]
  exact hw p hp

theorem pairEq {α β} {p : α × β} {a : α} {b : β} (h : p = (a, b)) :
    a = p.1 ∧ b = p.2 := by
  subst h
  exact ⟨rfl, rfl⟩

set_option maxHeartbeats 1000000 in
theorem parseEntry_spec {s : TState} {e : CEntry} (hw : WfS s) (h2 : 2 ≤ e.vals.length)
    {r : ℕ} {s' : TState} (hp : parseEntry s e = .ok (r, s')) :
    WfS s' ∧ (∀ key i, findKey s.nodeMap key = some i → findKey s'.nodeMap key = some i) ∧
    ∃ d, findKey s'.nodeMap (entryKey e) = some d ∧
      (s'.nodes.get? d).map (·.budget) = some (some e.amount) := by
  have hvne : e.vals ≠ [] := by
    intro hnil
    rw [hnil] at h2
    simp at h2
  have hdne : e.vals.dropLast ≠ [] := by
    apply List.length_pos.mp
    rw [List.length_dropLast]
    omega
  rw [parseEntry, if_neg (by omega)] at hp
  by_cases ht : e.kind = "task"
  · by_cases hb : (e.vals.headD "").startsWith "budget-"
    · rw [if_pos ht, if_pos hb] at hp
      obtain ⟨hr, hs⟩ := pairEq (Except.ok.inj hp)
      obtain ⟨hwf, hmono, d, hbind, hbud⟩ :=
        parseChain_spec s "tasks" e.month e.vals.dropLast hdne e.amount hw
      rw [← hs] at hwf hbind hbud
      have hsc : entryScope e = "tasks" := by rw [entryScope, if_pos ht]
      have hpp : entryPeriod e = e.month := by rw [entryPeriod, if_pos ht, if_pos hb]
      have hkey : entryKey e = "tasks" ++ e.month ++ e.vals.dropLast.getLastD "" := by
        rw [entryKey, hsc, hpp]
        rfl
      rw [hkey]
      refine ⟨hwf, ?_, d, hbind, hbud⟩
      intro key i h
      rw [hs]
      exact hmono key i h
    · rw [if_pos ht, if_neg hb] at hp
      obtain ⟨hr, hs⟩ := pairEq (Except.ok.inj hp)
      obtain ⟨hwf, hmono, d, hbind, hbud⟩ :=
        parseChain_spec (addTask s (e.vals.headD "")) "tasks" "" e.vals.dropLast hdne
          e.amount (addTask_wf hw _)
      rw [← hs] at hwf hbind hbud
      have hsc : entryScope e = "tasks" := by rw [entryScope, if_pos ht]
      have hpp : entryPeriod e = "" := by rw [entryPeriod, if_pos ht, if_neg hb]
      have hkey : entryKey e = "tasks" ++ "" ++ e.vals.dropLast.getLastD "" := by
        rw [entryKey, hsc, hpp]
        rfl
      rw [hkey]
      refine ⟨hwf, ?_, d, hbind, hbud⟩
      intro key i h
      rw [hs]
      apply hmono
      rw [addTask_nodeMap]
      exact h
  · rw [if_neg ht] at hp
    have hsegne : (e.month :: e.vals).dropLast ≠ [] := by
      rw [List.dropLast_cons_of_ne_nil hvne]
      simp
    obtain ⟨hr, hs⟩ := pairEq (Except.ok.inj hp)
    obtain ⟨hwf, hmono, d, hbind, hbud⟩ :=
      parseChain_spec s "monthly" e.month (e.month :: e.vals).dropLast hsegne e.amount hw
    rw [← hs] at hwf hbind hbud
    have hlast : (e.month :: e.vals).dropLast.getLastD "" = e.vals.dropLast.getLastD "" := by
      rw [List.dropLast_cons_of_ne_nil hvne, List.getLastD_cons]
      exact getLastD_irrel hdne _ _
    rw [hlast] at hbind
    have hsc : entryScope e = "monthly" := by rw [entryScope, if_neg ht]
    have hpp : entryPeriod e = e.month := by rw [entryPeriod, if_neg ht]
    have hkey : entryKey e = "monthly" ++ e.month ++ e.vals.dropLast.getLastD "" := by
      rw [entryKey, hsc, hpp]
      rfl
    rw [hkey]
    refine ⟨hwf, ?_, d, hbind, hbud⟩
    intro key i h
    rw [hs]
    exact hmono key i h

/-- C2: two allocation (or task) directives that resolve to the same
(scope, period, name) key address one node: after parsing the first directive
the key is registered to a node `d`; `createOrGet` on that key at that point is
a pure lookup returning `d` and leaving the state unchanged (no second node is
created for the key); and after parsing the second directive the key is still
bound to the same `d`, whose stored budget is exactly the second directive's
trailing amount — the previous budget is replaced, not added to. -/
theorem c2_same_key_overwrites {s : TState} {e₁ e₂ : CEntry} (hw : WfS s)
    (h1 : 2 ≤ e₁.vals.length) (h2 : 2 ≤ e₂.vals.length)
    (hkey : entryKey e₁ = entryKey e₂)
    {r₁ r₂ : ℕ} {s₁ s₂ : TState}
    (hp1 : parseEntry s e₁ = .ok (r₁, s₁))
    (hp2 : parseEntry s₁ e₂ = .ok (r₂, s₂)) :
    ∃ d, findKey s₁.nodeMap (entryKey e₂) = some d ∧
      createOrGet s₁ (entryScope e₂) (entryPeriod e₂) (entryLeafName e₂) = (d, s₁) ∧
      findKey s₂.nodeMap (entryKey e₂) = some d ∧
      (s₂.nodes.get? d).map (·.budget) = some (some e₂.amount) := by
  obtain ⟨hw1, hmono1, d, hbind1, hbud1⟩ := parseEntry_spec hw h1 hp1
  obtain ⟨hw2, hmono2, d₂, hbind2, hbud2⟩ := parseEntry_spec hw1 h2 hp2
  rw [hkey] at hbind1
  have hcg : createOrGet s₁ (entryScope e₂) (entryPeriod e₂) (entryLeafName e₂) =
      (d, s₁) := createOrGet_found hbind1
  have hh := hmono2 _ _ hbind1
  rw [hbind2] at hh
  obtain rfl := Option.some.inj hh
  exact ⟨_, hbind1, hcg, hbind2, hbud2⟩

/-- Example directive: `2024-01-xx custom "envelope" "allocate" "Food" 50`. -/
def exE1 : CEntry := ⟨"allocate", "2024-01", ["Food", "50"], 50⟩

/-- The same key allocated again with amount 70. -/
def exE2 : CEntry := ⟨"allocate", "2024-01", ["Food", "70"], 70⟩

/-- State after parsing `exE1` into an empty tree. -/
def exS1 : TState :=
  ⟨[⟨"monthly", none, none, [1]⟩, ⟨"2024-01", none, none, [2]⟩, ⟨"Food", some 50, none, []⟩],
    [("monthlymonthlymonthly", 0), ("monthly2024-012024-01", 1), ("monthly2024-01Food", 2)],
    []⟩

/-- State after parsing `exE2` on top of `exS1`: same shape, budget replaced. -/
def exS2 : TState :=
  ⟨[⟨"monthly", none, none, [1]⟩, ⟨"2024-01", none, none, [2]⟩, ⟨"Food", some 70, none, []⟩],
    [("monthlymonthlymonthly", 0), ("monthly2024-012024-01", 1), ("monthly2024-01Food", 2)],
    []⟩

/-- Witness for C2: the repeated `Food` allocation reuses node 2 and replaces
budget 50 by 70. -/
theorem c2_same_key_overwrites_witness :
    ∃ d, findKey exS1.nodeMap (entryKey exE2) = some d ∧
      createOrGet exS1 (entryScope exE2) (entryPeriod exE2) (entryLeafName exE2) =
        (d, exS1) ∧
      findKey exS2.nodeMap (entryKey exE2) = some d ∧
      (exS2.nodes.get? d).map (·.budget) = some (some exE2.amount) :=
  @c2_same_key_overwrites TState.empty exE1 exE2
    (fun p hp => absurd hp (List.not_mem_nil p)) (by decide) (by decide) (by decide)
    0 0 exS1 exS2 rfl rfl

/-- C7: parsing an `allocate`/`task` directive fails with the malformed
directive error exactly when fewer than two values follow the keyword; with
two or more values this error is never raised. -/
theorem c7_malformed_iff (s : TState) (e : CEntry) :
    (e.vals.length < 2 → parseEntry s e = .error .malformed) ∧
    (2 ≤ e.vals.length → ∃ x, parseEntry s e = .ok x) := by
  constructor
  · intro h
    rw [parseEntry, if_pos h]
  · intro h
    rw [parseEntry, if_neg (by omega)]
    by_cases ht : e.kind = "task"
    · by_cases hb : (e.vals.headD "").startsWith "budget-"
      · rw [if_pos ht, if_pos hb]
        exact ⟨_, rfl⟩
      · rw [if_pos ht, if_neg hb]
        exact ⟨_, rfl⟩
    · rw [if_neg ht]
      exact ⟨_, rfl⟩

/-- Witness for C7: one value is rejected, two values parse. -/
theorem c7_malformed_iff_witness :
    parseEntry TState.empty ⟨"allocate", "2024-01", ["Food"], 0⟩ = .error .malformed ∧
    ∃ x, parseEntry TState.empty exE1 = .ok x :=
  ⟨(c7_malformed_iff TState.empty ⟨"allocate", "2024-01", ["Food"], 0⟩).1 (by decide),
   (c7_malformed_iff TState.empty exE1).2 (by decide)⟩

/-- C9: registry identity is the concatenated string, not the triple: the
distinct keys `("2024-0", "1Food")` and `("2024-01", "Food")` under the same
scope concatenate identically, so `createOrGet` returns the very node created
for the first key when asked for the second, creating nothing. -/
theorem c9_key_concat_alias :
    ("2024-0", "1Food") ≠ ("2024-01", "Food") ∧
    "monthly" ++ "2024-0" ++ "1Food" = "monthly" ++ "2024-01" ++ "Food" ∧
    (createOrGet (createOrGet TState.empty "monthly" "2024-0" "1Food").2
        "monthly" "2024-01" "Food").1 =
      (createOrGet TState.empty "monthly" "2024-0" "1Food").1 ∧
    (createOrGet (createOrGet TState.empty "monthly" "2024-0" "1Food").2
        "monthly" "2024-01" "Food").2 =
      (createOrGet TState.empty "monthly" "2024-0" "1Food").2 := by
  exact ⟨by decide, by decide, by decide, by decide⟩

/-- C10: `change_actual` with a registered key overwrites exactly that node's
`actual` (name, budget and children untouched, all other nodes and the registry
untouched, no node created) and returns `True`; with an unregistered key it
returns `False` and the state is exactly unchanged. -/
theorem c10_change_actual (s : TState) (task month n : String) (v : ℚ) :
    (∀ i, findKey s.nodeMap (task ++ month ++ n) = some i → i < s.nodes.length →
      ∃ nd, s.nodes.get? i = some nd ∧
        changeActual s task month n v =
          (true, { s with nodes := s.nodes.set i { nd with actual := some v } }) ∧
        (s.nodes.set i { nd with actual := some v }).length = s.nodes.length ∧
        (s.nodes.set i { nd with actual := some v }).get? i =
          some { nd with actual := some v } ∧
        ∀ j, j ≠ i → (s.nodes.set i { nd with actual := some v }).get? j =
          s.nodes.get? j) ∧
    (findKey s.nodeMap (task ++ month ++ n) = none →
      changeActual s task month n v = (false, s)) := by
  constructor
  · intro i hf hlen
    obtain ⟨nd, hnd⟩ := lt_get?_some hlen
    refine ⟨nd, hnd, ?_, ?_, ?_, ?_⟩
    · simp only [changeActual, hf, hnd]
    · rw [List.length_set]
    · exact List.get?_set_eq_of_lt _ hlen
    · intro j hj
      exact List.get?_set_ne _ _ (fun hh => hj hh.symm)
  · intro hf
    simp only [changeActual, hf]

/-- A one-node registered state for exercising `change_actual`. -/
def exCA : TState := ⟨[⟨"Food", some 50, none, []⟩], [("monthly2024-01Food", 0)], []⟩

/-- Witness for C10: a hit overwrites `actual` of node 0 and returns `True`;
a miss returns `False` and changes nothing. -/
theorem c10_change_actual_witness :
    (∃ nd, exCA.nodes.get? 0 = some nd ∧
      changeActual exCA "monthly" "2024-01" "Food" 7 =
        (true, { exCA with nodes := exCA.nodes.set 0 { nd with actual := some 7 } }) ∧
      (exCA.nodes.set 0 { nd with actual := some 7 }).length = exCA.nodes.length ∧
      (exCA.nodes.set 0 { nd with actual := some 7 }).get? 0 =
        some { nd with actual := some 7 } ∧
      ∀ j, j ≠ 0 → (exCA.nodes.set 0 { nd with actual := some 7 }).get? j =
        exCA.nodes.get? j) ∧
    changeActual exCA "tasks" "" "X" 7 = (false, exCA) :=
  ⟨(c10_change_actual exCA "monthly" "2024-01" "Food" 7).1 0 (by decide) (by decide),
   (c10_change_actual exCA "tasks" "" "X" 7).2 (by decide)⟩

/-! ### Traversal primitives on the object graph (`budget_tree.py`)

`BudgetTree.bfs` is a plain queue loop with no visited set.  `BudgetTree.dfs`
clears `self.visit_` and calls `_dfs`, which asserts
`id(self) not in self.visit_` (the spec's CycleError) and then recurses into
each child through the public `c.dfs(...)` — not `c._dfs(...)` — so every
recursive entry first clears the entered child's own per-instance visited set
and only then asserts on it.  The guard is therefore dead code: the traversal
revisits nodes that are reachable along several paths and recurses forever on
a cycle.  Both primitives are modelled on an arbitrary object graph
`g : ℕ → List ℕ` (node id — in Python the object identity — to ordered child
ids).  `dfsS` is that recursion written with an explicit stack of pending
sibling lists; `vis` maps each node id to its own `visit_` contents, `acc` is
the entry order of the whole call, and fuel only bounds the number of steps
(exhaustion is the distinct result `out`). -/

inductive TraceR where
  | ok (order : List ℕ)
  | cyc
  | out
deriving DecidableEq, Repr

/-- Pointwise update of the per-node `visit_` sets. -/
def setVis (vis : ℕ → List ℕ) (u : ℕ) (l : List ℕ) : ℕ → List ℕ :=
  fun v => if v = u then l else vis v

/-- One step per node entry, sequenced exactly as the source: `c.dfs` first
clears `c.visit_`, then `c._dfs` asserts `id(c) not in c.visit_` (`cyc`, the
spec's CycleError, if that ever failed), records the id in `c.visit_` and
descends into the children. -/
def dfsS (g : ℕ → List ℕ) : ℕ → List (List ℕ) → (ℕ → List ℕ) → List ℕ → TraceR
  | _, [], _, acc => .ok acc
  | 0, _ :: _, _, _ => .out
  | fuel+1, [] :: rest, vis, acc => dfsS g fuel rest vis acc
  | fuel+1, (u :: sib) :: rest, vis, acc =>
    let vis1 := setVis vis u []
    if u ∈ vis1 u then .cyc
    else dfsS g fuel (g u :: sib :: rest) (setVis vis1 u (vis1 u ++ [u])) (acc ++ [u])

/-- `BudgetTree.dfs` on node `u`, with the per-instance visited sets in state
`vis`. -/
def dfs (g : ℕ → List ℕ) (fuel u : ℕ) (vis : ℕ → List ℕ) : TraceR :=
  dfsS g fuel [[u]] vis []

/-- All `visit_` sets empty, as after `__init__`. -/
def visEmpty : ℕ → List ℕ := fun _ => []

/-- `BudgetTree.bfs`: queue with growing index and no visited set. -/
def bfsAux (g : ℕ → List ℕ) : ℕ → List ℕ → List ℕ → Option (List ℕ)
  | _, [], acc => some acc
  | 0, _ :: _, _ => none
  | fuel+1, u :: rest, acc => bfsAux g fuel (rest ++ g u) (acc ++ [u])

/-- Level-order visit sequence of `bfs`, when the loop terminates in `fuel`
steps. -/
def bfs (g : ℕ → List ℕ) (fuel u : ℕ) : Option (List ℕ) := bfsAux g fuel [u] []

/-- Reachability along child edges. -/
inductive Reach (g : ℕ → List ℕ) : ℕ → ℕ → Prop
  | refl (u : ℕ) : Reach g u u
  | step {u c v : ℕ} : c ∈ g u → Reach g c v → Reach g u v

/-- A diamond: node 3 is reachable from 0 along two paths. -/
def diamondG : ℕ → List ℕ :=
  fun i => if i = 0 then [1, 2] else if i = 1 then [3] else if i = 2 then [3] else []

/-- A self-loop at node 0. -/
def loopG : ℕ → List ℕ := fun _ => [0]

/-- A small tree: 0 with leaves 1 and 2. -/
def lineG : ℕ → List ℕ := fun i => if i = 0 then [1, 2] else []

/-- The entry step always takes the non-error branch: the just-cleared set
cannot contain the entered node, so the recursion continues with some updated
per-node state. -/
theorem dfsS_enter (g : ℕ → List ℕ) (fuel u : ℕ) (sib : List ℕ)
    (rest : List (List ℕ)) (vis : ℕ → List ℕ) (acc : List ℕ) :
    ∃ vis', dfsS g (fuel+1) ((u :: sib) :: rest) vis acc =
      dfsS g fuel (g u :: sib :: rest) vis' (acc ++ [u]) := by
  have hne : u ∉ setVis vis u [] u := by simp [setVis]
  exact ⟨setVis (setVis vis u []) u (setVis vis u [] u ++ [u]),
    by simp only [dfsS, if_neg hne]⟩

theorem dfsS_ne_cyc (g : ℕ → List ℕ) : ∀ (fuel : ℕ) (stack : List (List ℕ))
    (vis : ℕ → List ℕ) (acc : List ℕ), dfsS g fuel stack vis acc ≠ .cyc := by
  intro fuel
  induction fuel with
  | zero =>
    intro stack vis acc
    cases stack with
    | nil => simp [dfsS]
    | cons l rest => simp [dfsS]
  | succ fuel ih =>
    intro stack vis acc
    cases stack with
    | nil => simp [dfsS]
    | cons l rest =>
      cases l with
      | nil => exact ih rest vis acc
      | cons u sib =>
        obtain ⟨vis', hv⟩ := dfsS_enter g fuel u sib rest vis acc
        rw [hv]
        exact ih _ _ _

theorem dfsS_mono (g : ℕ → List ℕ) : ∀ (fuel : ℕ) (stack : List (List ℕ))
    (vis : ℕ → List ℕ) (acc acc' : List ℕ),
    dfsS g fuel stack vis acc = .ok acc' → ∃ ext, acc' = acc ++ ext := by
  intro fuel
  induction fuel with
  | zero =>
    intro stack vis acc acc' h
    cases stack with
    | nil =>
      simp only [dfsS, TraceR.ok.injEq] at h
      exact ⟨[], by rw [← h]; simp⟩
    | cons l rest => simp [dfsS] at h
  | succ fuel ih =>
    intro stack vis acc acc' h
    cases stack with
    | nil =>
      simp only [dfsS, TraceR.ok.injEq] at h
      exact ⟨[], by rw [← h]; simp⟩
    | cons l rest =>
      cases l with
      | nil => exact ih rest vis acc acc' h
      | cons u sib =>
        obtain ⟨vis', hv⟩ := dfsS_enter g fuel u sib rest vis acc
        rw [hv] at h
        obtain ⟨ext, hext⟩ := ih _ _ _ _ h
        exact ⟨u :: ext, by rw [hext, List.append_assoc]; rfl⟩

theorem dfsS_complete (g : ℕ → List ℕ) : ∀ (fuel : ℕ) (stack : List (List ℕ))
    (vis : ℕ → List ℕ) (acc acc' : List ℕ), dfsS g fuel stack vis acc = .ok acc' →
    ∀ l ∈ stack, ∀ c ∈ l, ∀ v, Reach g c v → v ∈ acc' := by
  intro fuel
  induction fuel with
  | zero =>
    intro stack vis acc acc' h
    cases stack with
    | nil => intro l hl; simp at hl
    | cons l rest => simp [dfsS] at h
  | succ fuel ih =>
    intro stack vis acc acc' h
    cases stack with
    | nil => intro l hl; simp at hl
    | cons l rest =>
      cases l with
      | nil =>
        intro l' hl' c hc v hr
        rcases List.mem_cons.mp hl' with rfl | hl'
        · simp at hc
        · exact ih rest vis acc acc' h l' hl' c hc v hr
      | cons u sib =>
        obtain ⟨vis', hv⟩ := dfsS_enter g fuel u sib rest vis acc
        rw [hv] at h
        intro l' hl' c hc v hr
        rcases List.mem_cons.mp hl' with rfl | hl'
        · rcases List.mem_cons.mp hc with rfl | hc
          · cases hr with
            | refl =>
              obtain ⟨ext, hext⟩ := dfsS_mono g fuel _ _ _ _ h
              rw [hext]
              simp
            | step hc' hr' =>
              exact ih _ _ _ _ h (g c) (by simp) _ hc' v hr'
          · exact ih _ _ _ _ h sib (by simp) c hc v hr
        · exact ih _ _ _ _ h l' (by simp [hl']) c hc v hr

theorem dfsS_sound (g : ℕ → List ℕ) : ∀ (fuel : ℕ) (stack : List (List ℕ))
    (vis : ℕ → List ℕ) (acc acc' : List ℕ), dfsS g fuel stack vis acc = .ok acc' →
    ∀ v ∈ acc', v ∈ acc ∨ ∃ l ∈ stack, ∃ c ∈ l, Reach g c v := by
  intro fuel
  induction fuel with
  | zero =>
    intro stack vis acc acc' h v hv
    cases stack with
    | nil =>
      simp only [dfsS, TraceR.ok.injEq] at h
      rw [← h] at hv
      exact Or.inl hv
    | cons l rest => simp [dfsS] at h
  | succ fuel ih =>
    intro stack vis acc acc' h v hv
    cases stack with
    | nil =>
      simp only [dfsS, TraceR.ok.injEq] at h
      rw [← h] at hv
      exact Or.inl hv
    | cons l rest =>
      cases l with
      | nil =>
        rcases ih rest vis acc acc' h v hv with hl | ⟨l', hl', c, hc, hr⟩
        · exact Or.inl hl
        · exact Or.inr ⟨l', by simp [hl'], c, hc, hr⟩
      | cons u sib =>
        obtain ⟨vis', hv'⟩ := dfsS_enter g fuel u sib rest vis acc
        rw [hv'] at h
        rcases ih _ _ _ _ h v hv with hl | ⟨l', hl', c, hc, hr⟩
        · rcases List.mem_append.mp hl with hl0 | hl1
          · exact Or.inl hl0
          · simp only [List.mem_singleton] at hl1
            refine Or.inr ⟨u :: sib, by simp, u, by simp, ?_⟩
            rw [hl1]
            exact Reach.refl u
        · rcases List.mem_cons.mp hl' with h1 | hl2
          · rw [h1] at hc
            exact Or.inr ⟨u :: sib, by simp, u, by simp, Reach.step hc hr⟩
          · rcases List.mem_cons.mp hl2 with h2 | hl3
            · rw [h2] at hc
              exact Or.inr ⟨u :: sib, by simp, c, by simp [hc], hr⟩
            · exact Or.inr ⟨l', by simp [hl3], c, hc, hr⟩

theorem dfs_loop_out : ∀ (fuel : ℕ) (vis : ℕ → List ℕ) (sib : List ℕ)
    (rest : List (List ℕ)) (acc : List ℕ),
    dfsS loopG fuel ((0 :: sib) :: rest) vis acc = .out := by
  intro fuel
  induction fuel with
  | zero => intro vis sib rest acc; rfl
  | succ fuel ih =>
    intro vis sib rest acc
    obtain ⟨vis', hv⟩ := dfsS_enter loopG fuel 0 sib rest vis acc
    rw [hv]
    exact ih vis' [] (sib :: rest) (acc ++ [0])

theorem bfs_loop_diverges : ∀ (fuel : ℕ) (q acc : List ℕ), q ≠ [] →
    bfsAux loopG fuel q acc = none := by
  intro fuel
  induction fuel with
  | zero =>
    intro q acc hq
    cases q with
    | nil => exact absurd rfl hq
    | cons u rest => rfl
  | succ fuel ih =>
    intro q acc hq
    cases q with
    | nil => exact absurd rfl hq
    | cons u rest =>
      rw [bfsAux]
      apply ih
      simp [loopG]

/-- C6 counterexample: neither traversal is cycle-protected.  Node 3 of the
diamond is reachable from node 0 by more than one path; `dfs` enters it twice
and completes normally (no CycleError is raised on re-entry, refuting both the
exactly-once and the fails-with-CycleError parts of the claim), and `bfs`
visits it twice as well (refuting the no-revisit part). -/
theorem c6_no_cycle_protection_cex :
    dfs diamondG 32 0 visEmpty = .ok [0, 1, 3, 2, 3] ∧
    ([0, 1, 3, 2, 3] : List ℕ).count 3 = 2 ∧
    bfs diamondG 20 0 = some [0, 1, 2, 3, 3] ∧
    ([0, 1, 2, 3, 3] : List ℕ).count 3 = 2 :=
  ⟨by decide, by decide, by decide, by decide⟩

/-- C6 (amended): neither traversal primitive is cycle-protected.
`depthFirst` recurses into each child through the clearing wrapper `dfs`, so
the entered node's own visited set is emptied immediately before the re-entry
assertion: the CycleError guard can never fire (no run of `dfsS` ever yields
`cyc`).  A completed `depthFirst` call enters exactly the reachable nodes, but
a node reachable by more than one path is entered once per path (the diamond
yields entry order 0,1,3,2,3), and on a cyclic graph `depthFirst` recurses
forever (it exhausts every fuel bound).  `breadthFirst` has no visited set at
all: it also visits a multiply-reachable node once per path and diverges on a
cyclic graph. -/
theorem c6_traversals_amended :
    (∀ (g : ℕ → List ℕ) (fuel : ℕ) (stack : List (List ℕ)) (vis : ℕ → List ℕ)
      (acc : List ℕ), dfsS g fuel stack vis acc ≠ .cyc) ∧
    (∀ (g : ℕ → List ℕ) (fuel u : ℕ) (vis : ℕ → List ℕ) (order : List ℕ),
      dfs g fuel u vis = .ok order → ∀ v, (Reach g u v ↔ v ∈ order)) ∧
    dfs diamondG 32 0 visEmpty = .ok [0, 1, 3, 2, 3] ∧
    (∀ (fuel : ℕ) (vis : ℕ → List ℕ), dfs loopG fuel 0 vis = .out) ∧
    bfs diamondG 20 0 = some [0, 1, 2, 3, 3] ∧
    (∀ fuel, bfs loopG fuel 0 = none) := by
  refine ⟨dfsS_ne_cyc, ?_, by decide, ?_, by decide, ?_⟩
  · intro g fuel u vis order h
    intro v
    constructor
    · intro hr
      exact dfsS_complete g fuel _ _ _ _ h [u] (by simp) u (by simp) v hr
    · intro hv
      rcases dfsS_sound g fuel _ _ _ _ h v hv with hl | ⟨l', hl', c, hc, hr⟩
      · simp at hl
      · simp only [List.mem_singleton] at hl'
        rw [hl'] at hc
        simp only [List.mem_singleton] at hc
        rw [← hc]
        exact hr
  · intro fuel vis
    exact dfs_loop_out fuel vis [] [] []
  · intro fuel
    exact bfs_loop_diverges fuel [0] [] (by simp)

/-- Witness for the amended C6, at concrete graphs: the guard never fires on
the small tree, and a successful DFS on it enumerates exactly its reachable
nodes. -/
theorem c6_traversals_amended_witness :
    dfsS lineG 6 [[0]] visEmpty [] ≠ .cyc ∧
    (Reach lineG 0 2 ↔ 2 ∈ ([0, 1, 2] : List ℕ)) :=
  ⟨c6_traversals_amended.1 lineG 6 [[0]] visEmpty [],
   c6_traversals_amended.2.1 lineG 10 0 visEmpty [0, 1, 2] (by decide) 2⟩

/-! ### Envelope table computations (`beancount_envelope.py`)

`envelope_df` is a matrix of rows (category) by (month, kind) columns holding
`Decimal` cells; the model stores, per category row, an association list from
month to the triple of cells.  `_set_available` walks the months and overwrites
the `available` cell of every month present in the row; the activity pass
(`_calculate_budget_activity`) reduces each (account, month) posting balance to
a number, quantizes it, flips its sign and writes it into the `activity` cell,
seeding `budgeted`/`available` at zero; `_calc_budget_budgeted` writes each
`allocate` directive's amount into the `budgeted` cell, last write winning;
`_set_overspent` writes the income-table `Overspent` row. -/

structure ECell where
  budgeted : ℚ
  activity : ℚ
  available : ℚ
deriving DecidableEq, Repr

abbrev EnvRow := List (String × ECell)

abbrev EnvDF := List (String × EnvRow)

/-- Cell of a row at a month column, when present (`(month, kind) in row`). -/
def findCell (row : EnvRow) (m : String) : Option ECell :=
  match row with
  | [] => none
  | p :: rest => if p.1 = m then some p.2 else findCell rest m

/-- Row of a category, when present. -/
def lookupRow (df : EnvDF) (cat : String) : Option EnvRow :=
  match df with
  | [] => none
  | r :: rest => if r.1 = cat then some r.2 else lookupRow rest cat

/-- Cell of the table at (category, month), when present. -/
def lookupCell (df : EnvDF) (cat m : String) : Option ECell :=
  (lookupRow df cat).bind (fun r => findCell r m)

/-- The cell rewrite of `_set_available`:
`row[month, "available"] = Decimal(row[month, "budgeted"]) + Decimal(row[month, "activity"])`. -/
def availUpd (c : ECell) : ECell := { c with available := c.budgeted + c.activity }

/-- One month step of `_set_available` over one row: months absent from the
row are skipped (`if month not in row: continue`). -/
def availRowUpdate (row : EnvRow) (m : String) : EnvRow :=
  row.map (fun p => if p.1 == m then (p.1, availUpd p.2) else p)

/-- `BeancountEnvelope._set_available`: for every row and every report month
present in the row, overwrite `available` with `budgeted + activity` of that
same month (the rollover-carry variant is commented out in the source). -/
def setAvailable (months : List String) (df : EnvDF) : EnvDF :=
  df.map (fun r => (r.1, months.foldl availRowUpdate r.2))

/-- The reduced balance of one (account, month): the summed postings, `None`
when the inventory reduces to empty (`get_only_position` on a zero balance). -/
def postingsTotal (l : List ℚ) : Option ℚ :=
  if l.sum = 0 then none else some l.sum

/-- The activity number written by `_calculate_budget_activity`:
`temp = total.quantize(Q) if total else 0.00; temp *= -1`. -/
def activityVal (total : Option ℚ) : ℚ :=
  -(match total with
    | some t => if t = 0 then (0 : ℚ) else q2 t
    | none => 0)

/-- The activity pass seeds a category cell with budgeted `0.00`, the negated
activity and available `0.00`. -/
def seedCell (total : Option ℚ) : ECell := ⟨0, activityVal total, 0⟩

/-- One `allocate` directive's write in `_calc_budget_budgeted`:
`envelope_df.loc[vals[-2], (month, "budgeted")] = Decimal(vals[-1])` (creating
the row or cell when absent, other cells defaulting to zero). -/
def setCellBudget (row : EnvRow) (m : String) (v : ℚ) : EnvRow :=
  if (row.find? (fun p => p.1 == m)).isSome then
    row.map (fun p => if p.1 == m then (p.1, { p.2 with budgeted := v }) else p)
  else row ++ [(m, ⟨v, 0, 0⟩)]

/-- Row-level write of `_calc_budget_budgeted`. -/
def setBudgetedCell (df : EnvDF) (cat m : String) (v : ℚ) : EnvDF :=
  if (df.find? (fun p => p.1 == cat)).isSome then
    df.map (fun p => if p.1 == cat then (p.1, setCellBudget p.2 m v) else p)
  else df ++ [(cat, [(m, ⟨v, 0, 0⟩)])]

/-- `_calc_budget_budgeted` over the in-window `allocate` directives
(category, month, amount) in entry order: last write per key wins. -/
def calcBudgetBudgeted (ds : List (String × String × ℚ)) (df : EnvDF) : EnvDF :=
  ds.foldl (fun acc d => setBudgetedCell acc d.1 d.2.1 d.2.2) df

/-- The inner loop of `_set_overspent` for one month: sum the previous month's
negative `available` cells over all category rows (cells absent or
non-negative contribute nothing). -/
def negAvailSum (df : EnvDF) (m : String) : ℚ :=
  (df.map (fun r =>
    match findCell r.2 m with
    | some c => if c.available < 0 then c.available else 0
    | none => 0)).sum

/-- `BeancountEnvelope._set_overspent`: the `Overspent` income row, one value
per report month — `0.00` for the first month, otherwise the accumulated
negative `available` of the previous month. -/
def setOverspent (months : List String) (df : EnvDF) : List (String × ℚ) :=
  (List.range months.length).map (fun i =>
    (months.getD i "", if i = 0 then 0 else negAvailSum df (months.getD (i - 1) "")))

/-- Specification-side formulation for C4: the sum over category rows of the
month's available values that are negative. -/
def negAvailSpec (df : EnvDF) (m : String) : ℚ :=
  (((df.filterMap (fun r => findCell r.2 m)).map (·.available)).filter
    (fun v => decide (v < 0))).sum

theorem availUpd_idem (c : ECell) : availUpd (availUpd c) = availUpd c := rfl

theorem findCell_availRowUpdate (row : EnvRow) (m' m : String) :
    findCell (availRowUpdate row m') m =
      if m = m' then (findCell row m).map availUpd else findCell row m := by
  induction row with
  | nil =>
    simp only [availRowUpdate, List.map_nil, findCell]
    split <;> rfl
  | cons p rest ih =>
    simp only [availRowUpdate, List.map_cons] at ih ⊢
    by_cases hpm' : p.1 = m'
    · rw [if_pos (beq_iff_eq.mpr hpm')]
      by_cases hpm : p.1 = m
      · have hmm' : m = m' := hpm ▸ hpm'
        simp [findCell, hpm, hmm']
      · simp only [findCell, hpm, if_false]
        exact ih
    · rw [if_neg (by simpa using hpm')]
      by_cases hpm : p.1 = m
      · have hmm' : m ≠ m' := fun hh => hpm' (hpm.trans hh)
        simp [findCell, hpm, hmm']
      · simp only [findCell, hpm, if_false]
        exact ih

theorem foldAvail_findCell : ∀ (months : List String) (row : EnvRow) (m : String),
    findCell (months.foldl availRowUpdate row) m =
      if m ∈ months then (findCell row m).map availUpd else findCell row m := by
  intro months
  induction months with
  | nil =>
    intro row m
    simp
  | cons m' ms ih =>
    intro row m
    rw [List.foldl_cons, ih, findCell_availRowUpdate]
    have hcomp : availUpd ∘ availUpd = availUpd := funext availUpd_idem
    by_cases hm : m = m'
    · subst hm
      by_cases hms : m ∈ ms
      · simp [hms, Option.map_map, hcomp]
      · simp [hms]
    · by_cases hms : m ∈ ms
      · simp [hms, hm]
      · simp [hms, hm]

theorem lookupRow_setAvailable (months : List String) (df : EnvDF) (cat : String) :
    lookupRow (setAvailable months df) cat =
      (lookupRow df cat).map (fun row => months.foldl availRowUpdate row) := by
  induction df with
  | nil => rfl
  | cons r rest ih =>
    by_cases hc : r.1 = cat
    · simp [lookupRow, setAvailable, hc]
    · simpa [lookupRow, setAvailable, hc] using ih

/-- Activity pass and budgeted pass composed on the single-category scenario of
the specification: one posting of 30, one allocation of 50, one month. -/
def exDf3 : EnvDF :=
  calcBudgetBudgeted [("Food", "2024-01", 50)]
    [("Food", [("2024-01", seedCell (postingsTotal [30]))])]

/-- C3: `_set_available` writes, for every category row and month present,
`available = budgeted + activity` of that same month — the cell is rewritten by
`availUpd`, which keeps `budgeted` and `activity` and derives `available` from
them alone, with no carry-over from any earlier month; concretely, an
allocation of 50 with a single spend posting of 30 in the same month yields
budgeted 50, activity −30 (the accumulated spend is negated before being
written) and available 20. -/
theorem c3_available_budgeted_plus_activity (months : List String) (df : EnvDF)
    (cat m : String) (hm : m ∈ months) :
    lookupCell (setAvailable months df) cat m = (lookupCell df cat m).map availUpd ∧
    lookupCell (setAvailable ["2024-01"] exDf3) "Food" "2024-01" =
      some ⟨50, -30, 20⟩ := by
  constructor
  · rw [lookupCell, lookupRow_setAvailable]
    cases hr : lookupRow df cat with
    | none => simp [lookupCell, hr]
    | some row => simp [lookupCell, hr, foldAvail_findCell, hm]
  · have e30 : q2 (30 : ℚ) = 30 := by simpa using q2_intCast 30
    simp [exDf3, calcBudgetBudgeted, setBudgetedCell, setCellBudget, seedCell,
      postingsTotal, activityVal, e30, setAvailable, availRowUpdate, availUpd,
      lookupCell, lookupRow, findCell]
    norm_num

/-- Witness for C3 at the scenario table. -/
theorem c3_available_witness :
    lookupCell (setAvailable ["2024-01"] exDf3) "Food" "2024-01" =
      (lookupCell exDf3 "Food" "2024-01").map availUpd :=
  (c3_available_budgeted_plus_activity ["2024-01"] exDf3 "Food" "2024-01"
    (by decide)).1

theorem negAvail_eq (df : EnvDF) (m : String) : negAvailSum df m = negAvailSpec df m := by
  induction df with
  | nil => rfl
  | cons r rest ih =>
    cases hc : findCell r.2 m with
    | none =>
      simp only [negAvailSum, negAvailSpec, List.map_cons, List.sum_cons,
        List.filterMap_cons, hc] at ih ⊢
      rw [zero_add]
      exact ih
    | some c =>
      by_cases hneg : c.available < 0
      · simp only [negAvailSum, negAvailSpec, List.map_cons, List.sum_cons,
          List.filterMap_cons, hc, hneg, if_true] at ih ⊢
        simp [hneg, ih]
      · simp only [negAvailSum, negAvailSpec, List.map_cons, List.sum_cons,
          List.filterMap_cons, hc, hneg, if_false] at ih ⊢
        simp [hneg, ih]

theorem list_sum_nonpos {l : List ℚ} (h : ∀ v ∈ l, v ≤ 0) : l.sum ≤ 0 := by
  induction l with
  | nil => simp
  | cons x xs ih =>
    rw [List.sum_cons]
    have h1 := h x (by simp)
    have h2 := ih (fun y hy => h y (by simp [hy]))
    linarith

theorem negAvailSpec_nonpos (df : EnvDF) (m : String) : negAvailSpec df m ≤ 0 := by
  apply list_sum_nonpos
  intro v hv
  have hp := List.of_mem_filter hv
  simp only [decide_eq_true_eq] at hp
  linarith

/-- C4: the Overspent income row has value `0.00` at the first report month
and, at every later month index `i`, the sum over all category rows of the
month `i−1` available values that are negative — a value that is therefore
itself non-positive. -/
theorem c4_overspent_row (months : List String) (df : EnvDF) (i : ℕ)
    (hi : i < months.length) :
    (setOverspent months df).get? i =
      some (months.getD i "",
        if i = 0 then 0 else negAvailSpec df (months.getD (i - 1) "")) ∧
    (if i = 0 then (0 : ℚ) else negAvailSpec df (months.getD (i - 1) "")) ≤ 0 := by
  constructor
  · rw [setOverspent, List.get?_map, List.get?_range hi]
    simp [negAvail_eq]
  · by_cases h0 : i = 0
    · simp [h0]
    · simp only [h0, if_false]
      exact negAvailSpec_nonpos df _

/-- Single-category table whose first month ends 10 short: budgeted 50,
activity −60, available −10. -/
def exDf4 : EnvDF := [("Food", [("2024-01", ⟨50, -60, -10⟩)])]

/-- Witness for C4: with available −10.00 in the first month, the second
month's Overspent value is −10.00 (and non-positive). -/
theorem c4_overspent_row_witness :
    (setOverspent ["2024-01", "2024-02"] exDf4).get? 1 = some ("2024-02", -10) ∧
    (-10 : ℚ) ≤ 0 := by
  have h := c4_overspent_row ["2024-01", "2024-02"] exDf4 1 (by norm_num)
  have hval : negAvailSpec exDf4 "2024-01" = -10 := by
    simp [negAvailSpec, exDf4, findCell]
  constructor
  · rw [h.1]
    simp [hval]
  · norm_num

/-! ### Settings extraction (`beancount_envelope.py`)

`_find_envelop_settings` scans the custom entries of the envelope type and
dispatches on the first value.  The source's months-ahead branch tests the
literal keyword `"self.months_ ahead"` — the residue of a bad rename — so a
directive carrying the documented keyword `"months ahead"` is silently
ignored and `months_ahead` stays `0`; the report window end
(`date_end = today + relativedelta(months=+months_ahead)`) then stays at
today. -/

structure SCustom where
  typ : String
  values : List String
deriving DecidableEq, Repr

structure EnvSettings where
  startDate : Option String
  budgetAccounts : List String
  mappings : List (String × String)
  incomeAccounts : List String
  currency : Option String
  negativeRollover : Bool
  monthsAhead : ℤ
deriving DecidableEq, Repr

/-- Python `int(...)` on the directive's (well-formed) integer argument:
an optional sign followed by decimal digits. -/
def pyInt (s : String) : ℤ :=
  let t := s.toList
  let p : ℤ × List Char :=
    match t with
    | '-' :: rest => (-1, rest)
    | '+' :: rest => (1, rest)
    | _ => (1, t)
  p.1 * (p.2.foldl (fun acc c => acc * 10 + (c.toNat - '0'.toNat)) 0 : ℕ)

/-- Initial settings before the scan. -/
def initSettings : EnvSettings := ⟨none, [], [], [], none, false, 0⟩

/-- `BeancountEnvelope._find_envelop_settings`, over the `Custom` entries whose
type matches the envelope type (regex patterns kept as their source strings;
`currency` and `negative rollover` set instance attributes in the source and
are carried in the same record here). -/
def findEnvelopSettings (etype : String) (entries : List SCustom) : EnvSettings :=
  entries.foldl (fun acc e =>
    if e.typ = etype then
      let key := e.values.headD ""
      let v1 := (e.values.get? 1).getD ""
      let acc := if key = "start date" then { acc with startDate := some v1 } else acc
      let acc := if key = "budget account" then
        { acc with budgetAccounts := acc.budgetAccounts ++ [v1] } else acc
      let acc := if key = "mapping" then
        { acc with mappings := acc.mappings ++ [(v1, (e.values.get? 2).getD "")] } else acc
      let acc := if key = "income account" then
        { acc with incomeAccounts := acc.incomeAccounts ++ [v1] } else acc
      let acc := if key = "currency" then { acc with currency := some v1 } else acc
      let acc := if key = "negative rollover" then
        (if v1 = "allow" then { acc with negativeRollover := true } else acc) else acc
      if key = "self.months_ ahead" then { acc with monthsAhead := pyInt v1 } else acc
    else acc) initSettings

structure PDate where
  year : ℕ
  month : ℕ
  day : ℕ
deriving DecidableEq, Repr

def isLeap (y : ℕ) : Bool := (y % 4 == 0 && y % 100 != 0) || y % 400 == 0

def daysInMonth (y m : ℕ) : ℕ :=
  if m = 2 then (if isLeap y then 29 else 28)
  else if m = 4 ∨ m = 6 ∨ m = 9 ∨ m = 11 then 30 else 31

/-- `dateutil.relativedelta(months=+k)` addition: shift the month, clamp the
day to the target month's length. -/
def addMonths (dt : PDate) (k : ℤ) : PDate :=
  let tot : ℤ := (dt.year : ℤ) * 12 + ((dt.month : ℤ) - 1) + k
  let y := (tot / 12).toNat
  let m := (tot % 12).toNat + 1
  ⟨y, m, min dt.day (daysInMonth y m)⟩

/-- `self.date_end = date(today...) + relativedelta(months=+self.months_ahead)`. -/
def dateEnd (today : PDate) (monthsAhead : ℤ) : PDate := addMonths today monthsAhead

/-- C5 does not hold of the code: the settings scan matches the literal
keyword `"self.months_ ahead"` (a rename slip), so a stream whose directive
carries the documented keyword `"months ahead"` with value 3 leaves the
months-ahead setting at 0 and the window end at today, while the mistyped
keyword is the one that sets it to 3. -/
theorem c5_months_ahead_keyword_bug :
    (findEnvelopSettings "envelope" [⟨"envelope", ["months ahead", "3"]⟩]).monthsAhead
      = 0 ∧
    dateEnd ⟨2026, 10, 12⟩
      (findEnvelopSettings "envelope"
        [⟨"envelope", ["months ahead", "3"]⟩]).monthsAhead = ⟨2026, 10, 12⟩ ∧
    (findEnvelopSettings "envelope"
      [⟨"envelope", ["self.months_ ahead", "3"]⟩]).monthsAhead = 3 ∧
    dateEnd ⟨2026, 10, 12⟩ 3 = ⟨2027, 1, 12⟩ :=
  ⟨by decide, by decide, by decide, by decide⟩
